import Mathlib

/-
Verification of the portfolio-aggregation and news-filtering logic of
`src/simple_newsletter.py` (AI financial newsletter automation).

The Python code is shallowly embedded:
  * spreadsheet rows become a `Row` structure of raw strings,
  * Python `dict` (insertion-ordered, last-write-wins) becomes an
    insertion-ordered association list with in-place value update,
  * Python `float` values become exact rationals `ℚ`,
  * `datetime` values at midnight become proleptic-Gregorian day ordinals `ℤ`,
  * the global `USER_PORTFOLIO` side effect becomes an explicit
    argument/result pair.
-/

namespace Newsletter

/-! ## Python string primitives used by the script -/

/-- Whitespace characters recognised by Python `str.strip()` (ASCII range). -/
def isPySpace (c : Char) : Bool :=
  c = ' ' ∨ c = '\t' ∨ c = '\n' ∨ c = '\r' ∨ c = '\x0b' ∨ c = '\x0c'

/-- Model of Python `str.strip()`: removes leading and trailing whitespace. -/
def pyStrip (s : String) : String :=
  String.mk (((s.toList.dropWhile isPySpace).reverse.dropWhile isPySpace).reverse)

/-- Model of Python `str.lower()` (ASCII letters, which is all the claims use). -/
def pyLower (s : String) : String :=
  String.mk (s.toList.map Char.toLower)

/-- Model of `str(value).replace(',', '').replace('$', '')` from
`get_portfolio_history`: removing every comma and then every dollar sign is the
same as filtering both out in one pass. -/
def stripCommasDollars (s : String) : String :=
  String.mk (s.toList.filter (fun c => ¬ (c = ',' ∨ c = '$')))

/-! ## Model of Python `float(...)` applied to a string

`float` strips surrounding whitespace and accepts an optional sign, a decimal
mantissa (digits, optionally with a decimal point on either side) and an
optional exponent part.  The result is modelled exactly as a rational.
(Digit-group underscores and the `inf` / `nan` literals accepted by CPython are
not modelled; no claim depends on them.) -/

/-- Read a maximal run of decimal digits, returning the accumulated value, the
number of digits read and the rest of the input. -/
def readDigits : List Char → Nat → Nat → Nat × Nat × List Char
  | [], acc, n => (acc, n, [])
  | c :: cs, acc, n =>
    if c.isDigit then readDigits cs (acc * 10 + (c.toNat - 48)) (n + 1)
    else (acc, n, c :: cs)

/-- Read an optional leading sign; returns `true` for a minus sign. -/
def readSign : List Char → Bool × List Char
  | '-' :: cs => (true, cs)
  | '+' :: cs => (false, cs)
  | cs => (false, cs)

/-- Parse the exponent suffix of a float literal (after the `e`/`E`). -/
def parseExpSuffix (base : ℚ) (cs : List Char) : Option ℚ :=
  let p := readSign cs
  let q := readDigits p.2 0 0
  if q.2.1 = 0 ∨ q.2.2 ≠ [] then none
  else some (if p.1 then base / 10 ^ q.1 else base * 10 ^ q.1)

/-- Parse a float literal from an already-stripped character list. -/
def parseFloatChars (cs : List Char) : Option ℚ :=
  let p := readSign cs
  let ipart := readDigits p.2 0 0
  let afterDot := match ipart.2.2 with
    | '.' :: rest => (true, rest)
    | other => (false, other)
  let fpart := if afterDot.1 then readDigits afterDot.2 0 0 else (0, 0, afterDot.2)
  if ipart.2.1 + fpart.2.1 = 0 then none
  else
    let mant : ℚ := ((ipart.1 * 10 ^ fpart.2.1 + fpart.1 : Nat) : ℚ) / ((10 ^ fpart.2.1 : Nat) : ℚ)
    let signed := if p.1 then -mant else mant
    match fpart.2.2 with
    | [] => some signed
    | 'e' :: rest => parseExpSuffix signed rest
    | 'E' :: rest => parseExpSuffix signed rest
    | _ => none

/-- Model of Python `float(s)` on a string, as used at line 116 of the source. -/
def parseFloat (s : String) : Option ℚ :=
  parseFloatChars (pyStrip s).toList

/-! ## Model of `datetime.strptime` for the two formats the script tries

The script parses dates with `'%Y-%m-%d'` and falls back to `'%d/%m/%Y'`.
A parsed midnight `datetime` is modelled by its proleptic-Gregorian day
ordinal, so that `(dt - target).days` is exactly the difference of ordinals. -/

/-- Gregorian leap-year test. -/
def isLeapYear (y : Nat) : Bool :=
  y % 4 = 0 ∧ (y % 100 ≠ 0 ∨ y % 400 = 0)

/-- Number of days in a month of a given year. -/
def daysInMonth (y m : Nat) : Nat :=
  if m = 2 then (if isLeapYear y then 29 else 28)
  else if m = 4 ∨ m = 6 ∨ m = 9 ∨ m = 11 then 30
  else 31

/-- Day ordinal of a calendar date (days-from-civil algorithm; only differences
of ordinals are ever used, matching `timedelta.days` between midnights). -/
def dateOrdinal (y m d : Nat) : Int :=
  let y' : Nat := if m ≤ 2 then y - 1 else y
  let era := y' / 400
  let yoe := y' % 400
  let mp := if 2 < m then m - 3 else m + 9
  let doy := (153 * mp + 2) / 5 + (d - 1)
  let doe := yoe * 365 + yoe / 4 - yoe / 100 + doy
  (era * 146097 + doe : Int) - 719468

/-- Validity of a calendar date as checked by `datetime.strptime`. -/
def validDate (y m d : Nat) : Bool :=
  1 ≤ y ∧ y ≤ 9999 ∧ 1 ≤ m ∧ m ≤ 12 ∧ 1 ≤ d ∧ d ≤ daysInMonth y m

/-- Split a character list on a separator character (model of one-character
`str.split`, used to decompose the fixed `strptime` formats). -/
def splitOnChar (sep : Char) : List Char → List (List Char)
  | [] => [[]]
  | c :: cs =>
    let rest := splitOnChar sep cs
    if c = sep then [] :: rest
    else match rest with
      | [] => [[c]]
      | g :: gs => (c :: g) :: gs

/-- Parse a field of at most `maxLen` digits, as the numeric `strptime`
directives `%Y` (4), `%m` (2), `%d` (2) do. -/
def parseNatField (cs : List Char) (maxLen : Nat) : Option Nat :=
  if cs = [] ∨ maxLen < cs.length ∨ ¬ cs.all Char.isDigit then none
  else some (readDigits cs 0 0).1

/-- Model of `datetime.strptime(s, '%Y-%m-%d')`, returning the day ordinal. -/
def parseDateISO (s : String) : Option Int :=
  match splitOnChar '-' s.toList with
  | [ys, ms, ds] =>
    match parseNatField ys 4, parseNatField ms 2, parseNatField ds 2 with
    | some y, some m, some d => if validDate y m d then some (dateOrdinal y m d) else none
    | _, _, _ => none
  | _ => none

/-- Model of `datetime.strptime(s, '%d/%m/%Y')`, returning the day ordinal. -/
def parseDateDMY (s : String) : Option Int :=
  match splitOnChar '/' s.toList with
  | [ds, ms, ys] =>
    match parseNatField ys 4, parseNatField ms 2, parseNatField ds 2 with
    | some y, some m, some d => if validDate y m d then some (dateOrdinal y m d) else none
    | _, _, _ => none
  | _ => none

/-- The two-format date parse the script performs (ISO first, then
day/month/year), as at lines 132-138 and 146-153 of the source. -/
def parseDate (s : String) : Option Int :=
  match parseDateISO s with
  | some v => some v
  | none => parseDateDMY s

/-! ## Python `dict` as an insertion-ordered association list

Updating an existing key keeps its position and replaces the value; a new key
is appended.  Iteration order is list order, which is Python's insertion
order. -/

/-- Association-list lookup (Python `d.get(k)` / `k in d`). -/
def dictLookup (d : List (String × α)) (k : String) : Option α :=
  match d with
  | [] => none
  | p :: rest => if p.1 = k then some p.2 else dictLookup rest k

/-- Association-list update (Python `d[k] = v`). -/
def dictInsert (d : List (String × α)) (k : String) (v : α) : List (String × α) :=
  match d with
  | [] => [(k, v)]
  | p :: rest => if p.1 = k then (p.1, v) :: rest else p :: dictInsert rest k v

/-- Maximum of the stored values (Python `max(vals.values())`, callers
guarantee non-emptiness; the `[]` case is arbitrary). -/
def dictValuesMax : List (String × ℚ) → ℚ
  | [] => 0
  | [p] => p.2
  | p :: q :: rest => max p.2 (dictValuesMax (q :: rest))

/-- Helper loop for `firstArgmax`, keeping the current best key and value. -/
def firstArgmaxLoop (bestK : String) (bestV : ℚ) : List (String × ℚ) → String
  | [] => bestK
  | p :: rest =>
    if bestV < p.2 then firstArgmaxLoop p.1 p.2 rest
    else firstArgmaxLoop bestK bestV rest

/-- Model of Python `max(vals, key=vals.get)`: the first key (in insertion
order) whose value attains the maximum. -/
def firstArgmax : List (String × ℚ) → String
  | [] => ""
  | p :: rest => firstArgmaxLoop p.1 p.2 rest

/-! ## Stable sorting (model of Python `sorted` / `list.sort`) -/

/-- Insert an element before the first tail element it relates to; combined
with `insSort` this is a stable sort for a total preorder `le`. -/
def insertSorted (le : α → α → Bool) (x : α) : List α → List α
  | [] => [x]
  | y :: ys => if le x y then x :: y :: ys else y :: insertSorted le x ys

/-- Stable insertion sort: earlier elements are inserted in front of later
equal elements, matching Python's stable sorts. -/
def insSort (le : α → α → Bool) : List α → List α
  | [] => []
  | x :: xs => insertSorted le x (insSort le xs)

/-- Lexicographic comparison of character lists by code point, the order
Python uses on strings. -/
def charListLt : List Char → List Char → Bool
  | [], [] => false
  | [], _ :: _ => true
  | _ :: _, [] => false
  | a :: as, b :: bs =>
    if a < b then true
    else if b < a then false
    else charListLt as bs

/-- Lexicographic string order used by Python `sorted` on strings. -/
def strLe (a b : String) : Bool := ! charListLt b.toList a.toList

/-! ## The spreadsheet rows and the per-ticker history -/

/-- One spreadsheet row as read by `worksheet.get_all_records()`: the `date`,
`ticker` and `value` cells, each already passed through `str(...)`. -/
structure Row where
  date : String
  ticker : String
  value : String
deriving DecidableEq, Repr

/-- Per-row processing of the loop at lines 109-120: strip ticker and date,
skip the row when either is empty, then parse the value after removing commas
and dollar signs, skipping the row when the parse fails. -/
def parseRow (r : Row) : Option (String × String × ℚ) :=
  let date := pyStrip r.date
  let ticker := pyStrip r.ticker
  if ticker = "" ∨ date = "" then none
  else
    match parseFloat (stripCommasDollars r.value) with
    | none => none
    | some v => some (ticker, date, v)

/-- The `(ticker, date)` key of a row, when the row parses. -/
def rowKey (r : Row) : Option (String × String) :=
  (parseRow r).map (fun x => (x.1, x.2.1))

/-- The `{ticker: {date: value}}` nested dictionary. -/
abbrev TickerHistory := List (String × List (String × ℚ))

/-- `ticker_history[ticker][date] = value` on the `defaultdict(dict)`. -/
def historyInsert (h : TickerHistory) (t d : String) (v : ℚ) : TickerHistory :=
  match h with
  | [] => [(t, [(d, v)])]
  | p :: rest =>
    if p.1 = t then (p.1, dictInsert p.2 d v) :: rest
    else p :: historyInsert rest t d v

/-- One iteration of the row loop, acting on `(ticker_history, all_dates)`.
`all_dates` is a Python `set`; it is only ever consumed through `sorted`, so it
is modelled as a duplicate-free list in first-insertion order. -/
def buildStep (acc : TickerHistory × List String) (r : Row) : TickerHistory × List String :=
  match parseRow r with
  | none => acc
  | some (t, d, v) =>
    (historyInsert acc.1 t d v, if d ∈ acc.2 then acc.2 else acc.2 ++ [d])

/-- The whole row loop of lines 109-120. -/
def buildHistory (rows : List Row) : TickerHistory × List String :=
  rows.foldl buildStep ([], [])

/-- The history-only part of one row-loop iteration. -/
def stepH (h : TickerHistory) (r : Row) : TickerHistory :=
  match parseRow r with
  | none => h
  | some (t, d, v) => historyInsert h t d v

/-- The `ticker_history` dictionary built from the rows. -/
def historyOf (rows : List Row) : TickerHistory := (buildHistory rows).1

/-- The `all_dates` set built from the rows. -/
def datesOf (rows : List Row) : List String := (buildHistory rows).2

/-- Nested lookup `ticker_history[t].get(d)`. -/
def historyLookup (h : TickerHistory) (t d : String) : Option ℚ :=
  (dictLookup h t).bind (fun m => dictLookup m d)

/-- `sorted_dates = sorted(all_dates)` (line 126). -/
def sortedDatesOf (rows : List Row) : List String := insSort strLe (datesOf rows)

/-- `latest_date = sorted_dates[-1]` (line 127). -/
def latestDateOf (rows : List Row) : String := (sortedDatesOf rows).getLastD ""

/-- `earliest_date = sorted_dates[0]` (line 128). -/
def earliestDateOf (rows : List Row) : String := (sortedDatesOf rows).headD ""

/-! ## Nearest-date lookup (`find_closest_date`, lines 140-158) -/

/-- The loop of `find_closest_date`: scan the dates, skip the ones that parse
in neither format, and keep the first date attaining the strictly smallest
absolute day-distance (`min_diff` starts at infinity, modelled by `none`). -/
def fcdLoop (t : Int) (closest : Option String) (minDiff : Option Nat) :
    List String → Option String
  | [] => closest
  | d :: ds =>
    match parseDate d with
    | none => fcdLoop t closest minDiff ds
    | some dt =>
      let diff := (dt - t).natAbs
      match minDiff with
      | none => fcdLoop t (some d) (some diff) ds
      | some m =>
        if diff < m then fcdLoop t (some d) (some diff) ds
        else fcdLoop t closest minDiff ds

/-- `find_closest_date(target_dt, dates)`: `None` target gives `None`,
otherwise the first minimiser of the absolute day-distance. -/
def find_closest_date (targetDt : Option Int) (dates : List String) : Option String :=
  match targetDt with
  | none => none
  | some t => fcdLoop t none none dates

/-- `latest_dt` (lines 132-138). -/
def latestDtOf (rows : List Row) : Option Int := parseDate (latestDateOf rows)

/-- `date_7d` (line 160): closest observed date to seven days before the
latest date. -/
def date7Of (rows : List Row) : Option String :=
  match latestDtOf rows with
  | some t => find_closest_date (some (t - 7)) (sortedDatesOf rows)
  | none => none

/-- `date_30d` (line 161). -/
def date30Of (rows : List Row) : Option String :=
  match latestDtOf rows with
  | some t => find_closest_date (some (t - 30)) (sortedDatesOf rows)
  | none => none

/-! ## Per-ticker statistics (lines 163-219) -/

/-- `total_latest` (lines 164-167): sum over every ticker of its value at the
latest date, absent tickers contributing 0. -/
def totalLatest (h : TickerHistory) (latestDate : String) : ℚ :=
  (h.map (fun p => (dictLookup p.2 latestDate).getD 0)).sum

/-- `total_latest` computed from the rows. -/
def totalLatestOf (rows : List Row) : ℚ :=
  totalLatest (historyOf rows) (latestDateOf rows)

/-- `latest_tickers` (line 170): tickers having a value at the latest date, in
insertion order. -/
def latestTickersOf (rows : List Row) : List String :=
  ((historyOf rows).filter (fun p => (dictLookup p.2 (latestDateOf rows)).isSome)).map Prod.fst

/-- All quantities computed for one ticker present at the latest snapshot
(lines 186-217), including the intermediate values the conditionals read. -/
structure TickerStats where
  ticker : String
  currentVal : ℚ
  firstVal : Option ℚ
  weight : ℚ
  overall : Option ℚ
  val7 : Option ℚ
  pct7 : Option ℚ
  val30 : Option ℚ
  pct30 : Option ℚ
  peakVal : ℚ
  peakDate : String
  drawdown : ℚ
  flaggedDrawdown : Bool
  atAllTimeHigh : Bool
deriving DecidableEq, Repr

/-- The statistics computed for a ticker with `current_val` present: weight
(0 when the total is falsy), overall/7d/30d percent changes (omitted when the
reference value is falsy), peak, first-argmax peak date, drawdown (0 when the
peak is falsy), the below-minus-10 warning flag, and the all-time-high flag of
the `elif` branch. -/
def tickerStats (latestDate earliestDate : String) (date7 date30 : Option String)
    (total : ℚ) (ticker : String) (vals : List (String × ℚ)) (currentVal : ℚ) :
    TickerStats :=
  let firstVal := dictLookup vals earliestDate
  let weight := if total = 0 then 0 else currentVal / total * 100
  let overall := match firstVal with
    | some f => if f = 0 then none else some ((currentVal - f) / f * 100)
    | none => none
  let val7 := match date7 with
    | some d => dictLookup vals d
    | none => none
  let pct7 := match val7 with
    | some v => if v = 0 then none else some ((currentVal - v) / v * 100)
    | none => none
  let val30 := match date30 with
    | some d => dictLookup vals d
    | none => none
  let pct30 := match val30 with
    | some v => if v = 0 then none else some ((currentVal - v) / v * 100)
    | none => none
  let peakVal := dictValuesMax vals
  let peakDate := firstArgmax vals
  let drawdown := if peakVal = 0 then 0 else (currentVal - peakVal) / peakVal * 100
  { ticker := ticker, currentVal := currentVal, firstVal := firstVal,
    weight := weight, overall := overall, val7 := val7, pct7 := pct7,
    val30 := val30, pct30 := pct30, peakVal := peakVal, peakDate := peakDate,
    drawdown := drawdown,
    flaggedDrawdown := decide (drawdown < -10),
    atAllTimeHigh := !(decide (drawdown < -10)) && decide (peakDate = latestDate) }

/-- One summary line: either the CLOSED/SOLD line of lines 182-185 or the
statistics line of lines 187-219. -/
inductive SummaryLine where
  | closed (ticker : String)
  | stats (st : TickerStats)
deriving DecidableEq, Repr

/-- The statistics carried by a line, when it has them. -/
def SummaryLine.getStats : SummaryLine → Option TickerStats
  | .closed _ => none
  | .stats st => some st

/-- The weight shown on a line (a closed line shows none, contributing 0). -/
def lineWeight : SummaryLine → ℚ
  | .closed _ => 0
  | .stats st => st.weight

/-- The body of the per-ticker loop (lines 177-219). -/
def tickerLine (latestDate earliestDate : String) (date7 date30 : Option String)
    (total : ℚ) (ticker : String) (vals : List (String × ℚ)) : SummaryLine :=
  match dictLookup vals latestDate with
  | none => .closed ticker
  | some c => .stats (tickerStats latestDate earliestDate date7 date30 total ticker vals c)

/-- `summary_lines` (lines 176-219): one line per ticker, tickers sorted. -/
def summaryLinesOf (rows : List Row) : List SummaryLine :=
  (insSort strLe ((historyOf rows).map Prod.fst)).map
    (fun t => tickerLine (latestDateOf rows) (earliestDateOf rows)
      (date7Of rows) (date30Of rows) (totalLatestOf rows) t
      ((dictLookup (historyOf rows) t).getD []))

/-- `movers` (lines 222-227): per ticker in insertion order, the overall
percent change, kept only when both the earliest and the latest value are
truthy (present and nonzero). -/
def moversOf (rows : List Row) : List (String × ℚ) :=
  (historyOf rows).filterMap (fun p =>
    match dictLookup p.2 (earliestDateOf rows), dictLookup p.2 (latestDateOf rows) with
    | some f, some c =>
      if f ≠ 0 ∧ c ≠ 0 then some (p.1, (c - f) / f * 100) else none
    | _, _ => none)

/-- `movers.sort(key=lambda x: x[1], reverse=True)` (line 229): stable sort,
descending by percent change. -/
def moversSortedOf (rows : List Row) : List (String × ℚ) :=
  insSort (fun a b => decide (b.2 ≤ a.2)) (moversOf rows)

/-- The content of the text block returned on success (lines 232-242): the
data range, the per-ticker lines and, when `movers` is non-empty, the top and
worst performer. -/
structure Summary where
  latestDate : String
  earliestDate : String
  numDates : Nat
  lines : List SummaryLine
  top : Option (String × ℚ)
  worst : Option (String × ℚ)
deriving DecidableEq, Repr

/-- `get_portfolio_history` on parsed rows: returns the summary (`none` models
the empty-string early returns of lines 100-102 and 122-124, reached without
raising) together with the new value of the global `USER_PORTFOLIO` list,
which is overwritten with `latest_tickers` exactly when that list is non-empty
(lines 169-173). -/
def get_portfolio_history (rows : List Row) (portfolio : List String) :
    Option Summary × List String :=
  if rows = [] then (none, portfolio)
  else if historyOf rows = [] then (none, portfolio)
  else
    (some { latestDate := latestDateOf rows
            earliestDate := earliestDateOf rows
            numDates := (sortedDatesOf rows).length
            lines := summaryLinesOf rows
            top := (moversSortedOf rows).head?
            worst := (moversSortedOf rows).getLast? },
     if latestTickersOf rows = [] then portfolio else latestTickersOf rows)

/-! ## Articles: freshness filter and de-duplication (lines 291-334) -/

/-- One fetched article (lines 273-279). -/
structure Article where
  title : String
  url : String
  source : String
  published : String
  category : String
deriving DecidableEq, Repr

/-- Model of `is_article_fresh` (lines 291-302).  The RFC 2822 parse performed
by the library call `parsedate_to_datetime` is abstracted as `parsePubDate`,
returning the publish time in seconds when the string parses; `now` is the
current time in seconds.  An empty string or a failed parse keeps the article
(fail-open); otherwise the article is kept iff its publish time is at least
`now` minus `maxAgeHours` hours. -/
def is_article_fresh (parsePubDate : String → Option Int) (now : Int)
    (pubDateStr : String) (maxAgeHours : Int) : Bool :=
  if pubDateStr = "" then true
  else
    match parsePubDate pubDateStr with
    | none => true
    | some pubDate => decide (now - maxAgeHours * 3600 ≤ pubDate)

/-- The freshness filter applied in `get_news` (line 321), with the default
24-hour window. -/
def filterFreshArticles (parsePubDate : String → Option Int) (now : Int)
    (articles : List Article) : List Article :=
  articles.filter (fun a => is_article_fresh parsePubDate now a.published 24)

/-- `title_key` (line 328): the title lowercased then stripped. -/
def titleKey (a : Article) : String := pyStrip (pyLower a.title)

/-- The de-duplication loop of lines 324-331: keep an article when its
normalised title is non-empty and not seen before. -/
def dedupLoop (seen : List String) : List Article → List Article
  | [] => []
  | a :: rest =>
    let k := titleKey a
    if k ≠ "" ∧ k ∉ seen then a :: dedupLoop (k :: seen) rest
    else dedupLoop seen rest

/-- De-duplication as performed by `get_news`. -/
def dedupArticles (articles : List Article) : List Article := dedupLoop [] articles

/-- The de-duplication the specification describes, for comparison: retain
exactly the first article for each distinct normalised-title key, with no
exception for an empty key. -/
def firstPerKeyLoop (seen : List String) : List Article → List Article
  | [] => []
  | a :: rest =>
    let k := titleKey a
    if k ∉ seen then a :: firstPerKeyLoop (k :: seen) rest
    else firstPerKeyLoop seen rest

/-- Modelled from the spec: retain the first article per distinct key. -/
def firstPerKeyArticles (articles : List Article) : List Article :=
  firstPerKeyLoop [] articles

/-- Two ticker histories agree as `(ticker, date) → value` maps. -/
def MapEq (h₁ h₂ : TickerHistory) : Prop :=
  ∀ t d, historyLookup h₁ t d = historyLookup h₂ t d

/-! ## Concrete inputs used by the counterexamples and witnesses -/

/-- A single row whose value is zero: its ticker is present at the latest date
yet the total portfolio value is zero. -/
def rowsC1cex : List Row := [⟨"2024-01-02", "A", "0"⟩]

/-- Two tickers with nonzero total: weights 60 and 40. -/
def rowsC1wit : List Row :=
  [⟨"2024-01-01", "A", "100"⟩, ⟨"2024-01-02", "A", "60"⟩, ⟨"2024-01-02", "B", "40"⟩]

/-- A ticker whose values are all negative: the peak is negative. -/
def rowsC2neg : List Row := [⟨"2024-01-01", "A", "-5"⟩, ⟨"2024-01-02", "A", "-10"⟩]

/-- A ticker whose maximum is attained on two dates, the earlier one first. -/
def rowsC2tie : List Row := [⟨"2024-01-01", "A", "5"⟩, ⟨"2024-01-02", "A", "5"⟩]

/-- A ticker whose latest value is its unique maximum. -/
def rowsC2wit : List Row := [⟨"2024-01-01", "A", "4"⟩, ⟨"2024-01-02", "A", "5"⟩]

/-- Statistics record with arbitrary contents, used as a `getD` fallback. -/
def dummyStats : TickerStats := tickerStats "" "" none none 0 "" [] 0

/-- The single summary line produced by `rowsC2wit`. -/
def lineC2wit : SummaryLine := (summaryLinesOf rowsC2wit).headD (SummaryLine.closed "")

/-- The statistics of that line. -/
def statsC2wit : TickerStats := lineC2wit.getStats.getD dummyStats

/-- Observed dates for the nearest-date witness; one of them parses in
neither format. -/
def datesC3wit : List String := ["2024-01-01", "2024-01-10", "nonsense"]

/-- A row whose value carries a thousands separator and a currency symbol. -/
def rowC4wit : Row := ⟨"2024-01-01", "A", "$1,234.50"⟩

/-- A row whose value does not parse. -/
def rowC4bad : Row := ⟨"2024-01-01", "A", "abc"⟩

/-- Ticker A present only at the earliest date, B only at the latest. -/
def rowsC5wit : List Row := [⟨"2024-01-01", "A", "10"⟩, ⟨"2024-01-02", "B", "5"⟩]

/-- Four rows with pairwise-distinct (ticker, date) keys, A first. -/
def rowsC6P : List Row :=
  [⟨"2024-01-01", "A", "1"⟩, ⟨"2024-01-02", "A", "2"⟩,
   ⟨"2024-01-01", "B", "1"⟩, ⟨"2024-01-02", "B", "2"⟩]

/-- The same four rows with the two tickers' rows exchanged. -/
def rowsC6Q : List Row :=
  [⟨"2024-01-01", "B", "1"⟩, ⟨"2024-01-02", "B", "2"⟩,
   ⟨"2024-01-01", "A", "1"⟩, ⟨"2024-01-02", "A", "2"⟩]

/-- An article whose title is whitespace only: its normalised key is empty. -/
def articleBlank : Article := ⟨" ", "", "", "", ""⟩

/-- Two articles whose titles differ only in case and surrounding blanks. -/
def articleFed1 : Article := ⟨"Fed Cuts Rates", "u1", "s1", "", "Business"⟩

/-- See `articleFed1`. -/
def articleFed2 : Article := ⟨" fed cuts rates ", "u2", "s2", "", "World"⟩

/-- One valid row for the frame-effect witness. -/
def rowsC9wit : List Row := [⟨"2024-01-01", "A", "10"⟩]

/-- A single row whose value does not parse: no valid data at all. -/
def rowsC9bad : List Row := [⟨"2024-01-01", "A", "abc"⟩]

/-- A ticker with a zero earliest value and nonzero latest value. -/
def rowsC10wit : List Row := [⟨"2024-01-01", "A", "0"⟩, ⟨"2024-01-02", "A", "1"⟩]

/-- The single summary line produced by `rowsC10wit`. -/
def lineC10wit : SummaryLine := (summaryLinesOf rowsC10wit).headD (SummaryLine.closed "")

/-- The statistics of that line. -/
def statsC10wit : TickerStats := lineC10wit.getStats.getD dummyStats

/-! ## Lemmas about the dictionary model -/

theorem dictLookup_dictInsert (m : List (String × α)) (k : String) (v : α) (k' : String) :
    dictLookup (dictInsert m k v) k' = if k = k' then some v else dictLookup m k' := by
  induction m with
  | nil => simp [dictInsert, dictLookup]
  | cons p rest ih =>
    by_cases hpk : p.1 = k
    · simp only [dictInsert, hpk, if_pos rfl, dictLookup]
      by_cases hk' : k = k' <;> simp [hk']
    · simp only [dictInsert, if_neg hpk, dictLookup]
      by_cases hk' : p.1 = k'
      · have : ¬ k = k' := fun h => hpk (h ▸ hk')
        simp [hk', this]
      · simp [hk', ih]

theorem mem_of_dictLookup {m : List (String × α)} {k : String} {v : α}
    (h : dictLookup m k = some v) : (k, v) ∈ m := by
  induction m with
  | nil => simp [dictLookup] at h
  | cons p rest ih =>
    obtain ⟨k1, v1⟩ := p
    by_cases hpk : k1 = k
    · subst hpk
      simp only [dictLookup, if_pos rfl] at h
      have hv : v1 = v := Option.some.inj h
      subst hv
      exact List.mem_cons_self _ _
    · simp only [dictLookup, if_neg hpk] at h
      exact List.mem_cons_of_mem _ (ih h)

theorem dictLookup_of_mem_nodup {m : List (String × α)} {k : String} {v : α}
    (hnd : (m.map Prod.fst).Nodup) (hmem : (k, v) ∈ m) : dictLookup m k = some v := by
  induction m with
  | nil => simp at hmem
  | cons p rest ih =>
    simp only [List.map_cons, List.nodup_cons] at hnd
    rcases List.mem_cons.1 hmem with h | h
    · cases h
      simp [dictLookup]
    · have hne : p.1 ≠ k := by
        intro he
        exact hnd.1 (he ▸ (List.mem_map.2 ⟨(k, v), h, rfl⟩))
      simp [dictLookup, hne, ih hnd.2 h]

theorem historyInsert_ne_nil (h : TickerHistory) (t d : String) (v : ℚ) :
    historyInsert h t d v ≠ [] := by
  cases h with
  | nil => simp [historyInsert]
  | cons p rest =>
    simp only [historyInsert]
    split <;> simp

theorem historyLookup_historyInsert (h : TickerHistory) (t d : String) (v : ℚ)
    (t' d' : String) :
    historyLookup (historyInsert h t d v) t' d' =
      if t = t' ∧ d = d' then some v else historyLookup h t' d' := by
  induction h with
  | nil =>
    by_cases ht : t = t'
    · subst ht
      by_cases hd : d = d' <;>
        simp [historyInsert, historyLookup, dictLookup, hd]
    · simp [historyInsert, historyLookup, dictLookup, ht]
  | cons p rest ih =>
    by_cases hpt : p.1 = t
    · subst hpt
      by_cases ht' : p.1 = t'
      · by_cases hd : d = d' <;>
          simp [historyInsert, historyLookup, dictLookup, dictLookup_dictInsert, ht', hd]
      · have hcond : ¬ (p.1 = t' ∧ d = d') := fun hc => ht' hc.1
        simp [historyInsert, historyLookup, dictLookup, ht', hcond]
    · have hins : historyInsert (p :: rest) t d v = p :: historyInsert rest t d v := by
        simp [historyInsert, hpt]
      rw [hins]
      by_cases ht' : p.1 = t'
      · have hcond : ¬ (t = t' ∧ d = d') := fun hc => hpt (ht'.trans hc.1.symm)
        simp [historyLookup, dictLookup, ht', hcond]
      · simp only [historyLookup, dictLookup, if_neg ht'] at ih ⊢
        exact ih

theorem keys_historyInsert (h : TickerHistory) (t d : String) (v : ℚ) :
    (historyInsert h t d v).map Prod.fst =
      if t ∈ h.map Prod.fst then h.map Prod.fst else h.map Prod.fst ++ [t] := by
  induction h with
  | nil => simp [historyInsert]
  | cons p rest ih =>
    by_cases hpt : p.1 = t
    · simp [historyInsert, hpt]
    · have : ¬ t = p.1 := fun h => hpt h.symm
      simp only [historyInsert, if_neg hpt, List.map_cons, ih, List.mem_cons, this,
        false_or]
      split <;> simp

theorem nodup_keys_historyInsert {h : TickerHistory} (t d : String) (v : ℚ)
    (hnd : (h.map Prod.fst).Nodup) : ((historyInsert h t d v).map Prod.fst).Nodup := by
  rw [keys_historyInsert]
  split
  · exact hnd
  · next hmem => simp [List.nodup_append, hnd, hmem]

theorem nodup_keys_foldl_stepH (rows : List Row) :
    ∀ h : TickerHistory, (h.map Prod.fst).Nodup →
      ((List.foldl stepH h rows).map Prod.fst).Nodup := by
  induction rows with
  | nil => intro h hnd; exact hnd
  | cons r rest ih =>
    intro h hnd
    simp only [List.foldl_cons]
    apply ih
    unfold stepH
    split
    · exact hnd
    · exact nodup_keys_historyInsert _ _ _ hnd

theorem fst_foldl_buildStep (rows : List Row) :
    ∀ acc : TickerHistory × List String,
      (List.foldl buildStep acc rows).1 = List.foldl stepH acc.1 rows := by
  induction rows with
  | nil => intro acc; rfl
  | cons r rest ih =>
    intro acc
    simp only [List.foldl_cons, ih]
    congr 1
    unfold buildStep stepH
    split <;> rfl

theorem historyOf_eq_foldl (rows : List Row) :
    historyOf rows = List.foldl stepH [] rows :=
  fst_foldl_buildStep rows ([], [])

theorem nodup_keys_historyOf (rows : List Row) :
    ((historyOf rows).map Prod.fst).Nodup := by
  rw [historyOf_eq_foldl]
  exact nodup_keys_foldl_stepH rows [] (by simp)

/-! ## Lemmas about the stable insertion sort -/

theorem insertSorted_perm (le : α → α → Bool) (x : α) (l : List α) :
    (insertSorted le x l).Perm (x :: l) := by
  induction l with
  | nil => exact List.Perm.refl _
  | cons y ys ih =>
    simp only [insertSorted]
    split
    · exact List.Perm.refl _
    · exact (ih.cons y).trans (List.Perm.swap x y ys)

theorem insSort_perm (le : α → α → Bool) (l : List α) : (insSort le l).Perm l := by
  induction l with
  | nil => exact List.Perm.refl _
  | cons x xs ih =>
    exact (insertSorted_perm le x (insSort le xs)).trans (ih.cons x)

theorem mem_getLastD : ∀ (l : List α) (a : α), l ≠ [] → l.getLastD a ∈ l
  | [], _, h => absurd rfl h
  | b :: l, a, _ => by
    rw [List.getLastD_cons]
    cases l with
    | nil => simp
    | cons c l' => exact List.mem_cons_of_mem _ (mem_getLastD (c :: l') b (by simp))

/-! ## Lemmas about the row fold -/

theorem foldl_stepH_ne_nil (rows : List Row) :
    ∀ h : TickerHistory, h ≠ [] → List.foldl stepH h rows ≠ [] := by
  induction rows with
  | nil => intro h hne; exact hne
  | cons r rest ih =>
    intro h hne
    simp only [List.foldl_cons]
    apply ih
    cases hps : parseRow r with
    | none => simpa only [stepH, hps] using hne
    | some x =>
      obtain ⟨t, d, v⟩ := x
      simp only [stepH, hps]
      exact historyInsert_ne_nil _ _ _ _

theorem foldl_stepH_ne_nil_of_parse (rows : List Row) :
    ∀ h : TickerHistory, (∃ r ∈ rows, (parseRow r).isSome) →
      List.foldl stepH h rows ≠ [] := by
  induction rows with
  | nil => intro h hr; simp at hr
  | cons r rest ih =>
    intro h hr
    simp only [List.foldl_cons]
    by_cases hp : (parseRow r).isSome
    · have hne : stepH h r ≠ [] := by
        cases hps : parseRow r with
        | none => rw [hps] at hp; simp at hp
        | some x =>
          obtain ⟨t, d, v⟩ := x
          simp only [stepH, hps]
          exact historyInsert_ne_nil _ _ _ _
      exact foldl_stepH_ne_nil rest _ hne
    · obtain ⟨r₀, hmem, hsome⟩ := hr
      rcases List.mem_cons.1 hmem with he | he
      · subst he; exact absurd hsome hp
      · exact ih _ ⟨r₀, he, hsome⟩

theorem historyOf_ne_nil {rows : List Row} (hr : ∃ r ∈ rows, (parseRow r).isSome) :
    historyOf rows ≠ [] := by
  rw [historyOf_eq_foldl]
  exact foldl_stepH_ne_nil_of_parse rows [] hr

theorem foldl_buildStep_of_noparse (rows : List Row) :
    ∀ acc, (∀ r ∈ rows, parseRow r = none) → List.foldl buildStep acc rows = acc := by
  induction rows with
  | nil => intro acc _; rfl
  | cons r rest ih =>
    intro acc hnp
    simp only [List.foldl_cons]
    have h1 : buildStep acc r = acc := by
      simp only [buildStep, hnp r (List.mem_cons_self r rest)]
    rw [h1]
    exact ih acc (fun x hx => hnp x (List.mem_cons_of_mem _ hx))

theorem snd_ne_nil_foldl_buildStep (rows : List Row) :
    ∀ acc : TickerHistory × List String, (acc.1 ≠ [] → acc.2 ≠ []) →
      (List.foldl buildStep acc rows).1 ≠ [] → (List.foldl buildStep acc rows).2 ≠ [] := by
  induction rows with
  | nil => intro acc hinv; exact hinv
  | cons r rest ih =>
    intro acc hinv
    simp only [List.foldl_cons]
    apply ih
    cases hps : parseRow r with
    | none => simpa only [buildStep, hps] using hinv
    | some x =>
      obtain ⟨t, d, v⟩ := x
      simp only [buildStep, hps]
      intro _
      split
      · next hmem => exact List.ne_nil_of_mem hmem
      · simp

theorem datesOf_ne_nil {rows : List Row} (h : historyOf rows ≠ []) :
    datesOf rows ≠ [] :=
  snd_ne_nil_foldl_buildStep rows ([], []) (fun hc => absurd rfl hc) h

theorem dates_have_witness (rows : List Row) :
    ∀ acc : TickerHistory × List String,
      (∀ d ∈ acc.2, ∃ t, (historyLookup acc.1 t d).isSome) →
      ∀ d ∈ (List.foldl buildStep acc rows).2,
        ∃ t, (historyLookup (List.foldl buildStep acc rows).1 t d).isSome := by
  induction rows with
  | nil => intro acc hinv; exact hinv
  | cons r rest ih =>
    intro acc hinv
    simp only [List.foldl_cons]
    apply ih
    cases hps : parseRow r with
    | none => simpa only [buildStep, hps] using hinv
    | some x =>
      obtain ⟨t₀, d₀, v₀⟩ := x
      simp only [buildStep, hps]
      intro d hd
      have hcases : d ∈ acc.2 ∨ d = d₀ := by
        by_cases hmem : d₀ ∈ acc.2
        · rw [if_pos hmem] at hd; exact Or.inl hd
        · rw [if_neg hmem] at hd
          rcases List.mem_append.1 hd with h | h
          · exact Or.inl h
          · simp only [List.mem_singleton] at h; exact Or.inr h
      rcases hcases with h | h
      · obtain ⟨t₁, ht₁⟩ := hinv d h
        refine ⟨t₁, ?_⟩
        rw [historyLookup_historyInsert]
        split
        · simp
        · exact ht₁
      · subst h
        refine ⟨t₀, ?_⟩
        rw [historyLookup_historyInsert]
        simp

theorem historyOf_witness_of_mem_dates {rows : List Row} {d : String}
    (hd : d ∈ datesOf rows) : ∃ t, (historyLookup (historyOf rows) t d).isSome :=
  dates_have_witness rows ([], []) (by simp) d hd

/-! ## Map-equivalence machinery for order-independence -/

theorem mapEq_refl (h : TickerHistory) : MapEq h h := fun _ _ => rfl

theorem mapEq_trans {h₁ h₂ h₃ : TickerHistory} (e₁ : MapEq h₁ h₂) (e₂ : MapEq h₂ h₃) :
    MapEq h₁ h₃ := fun t d => (e₁ t d).trans (e₂ t d)

theorem stepH_congr {h₁ h₂ : TickerHistory} (e : MapEq h₁ h₂) (r : Row) :
    MapEq (stepH h₁ r) (stepH h₂ r) := by
  cases hps : parseRow r with
  | none => simpa only [stepH, hps] using e
  | some x =>
    obtain ⟨t₀, d₀, v₀⟩ := x
    simp only [stepH, hps]
    intro t d
    rw [historyLookup_historyInsert, historyLookup_historyInsert]
    split
    · rfl
    · exact e t d

theorem foldl_stepH_congr (rows : List Row) :
    ∀ {h₁ h₂ : TickerHistory}, MapEq h₁ h₂ →
      MapEq (List.foldl stepH h₁ rows) (List.foldl stepH h₂ rows) := by
  induction rows with
  | nil => intro h₁ h₂ e; exact e
  | cons r rest ih =>
    intro h₁ h₂ e
    simp only [List.foldl_cons]
    exact ih (stepH_congr e r)

theorem stepH_comm {x y : Row}
    (hk : rowKey x = none ∨ rowKey y = none ∨ rowKey x ≠ rowKey y)
    (h : TickerHistory) : MapEq (stepH (stepH h x) y) (stepH (stepH h y) x) := by
  cases hpx : parseRow x with
  | none =>
    have hsx : ∀ h', stepH h' x = h' := fun h' => by simp only [stepH, hpx]
    rw [hsx, hsx]
    exact mapEq_refl _
  | some px =>
    cases hpy : parseRow y with
    | none =>
      have hsy : ∀ h', stepH h' y = h' := fun h' => by simp only [stepH, hpy]
      rw [hsy, hsy]
      exact mapEq_refl _
    | some py =>
      obtain ⟨t₁, d₁, v₁⟩ := px
      obtain ⟨t₂, d₂, v₂⟩ := py
      have hkx : rowKey x = some (t₁, d₁) := by simp [rowKey, hpx]
      have hky : rowKey y = some (t₂, d₂) := by simp [rowKey, hpy]
      have hkeys : (t₁, d₁) ≠ (t₂, d₂) := by
        rcases hk with h | h | h
        · rw [hkx] at h; exact absurd h (by simp)
        · rw [hky] at h; exact absurd h (by simp)
        · rw [hkx, hky] at h
          intro he
          exact h (by rw [he])
      simp only [stepH, hpx, hpy]
      intro t d
      rw [historyLookup_historyInsert, historyLookup_historyInsert,
        historyLookup_historyInsert, historyLookup_historyInsert]
      by_cases h2 : t₂ = t ∧ d₂ = d
      · by_cases h1 : t₁ = t ∧ d₁ = d
        · exact absurd (by rw [h1.1, h1.2, h2.1, h2.2]) hkeys
        · simp [h1, h2]
      · by_cases h1 : t₁ = t ∧ d₁ = d <;> simp [h1, h2]

theorem foldl_stepH_perm {rows rows' : List Row} (p : rows.Perm rows') :
    (rows.filterMap rowKey).Nodup →
      ∀ h : TickerHistory,
        MapEq (List.foldl stepH h rows) (List.foldl stepH h rows') := by
  induction p with
  | nil => intro _ h; exact mapEq_refl _
  | cons x p ih =>
    intro hnd h
    simp only [List.foldl_cons]
    refine ih ?_ (stepH h x)
    revert hnd
    cases hkx : rowKey x with
    | none => simp [List.filterMap_cons, hkx]
    | some k =>
      simp only [List.filterMap_cons, hkx, List.nodup_cons]
      exact And.right
  | swap x y l =>
    intro hnd h
    simp only [List.foldl_cons]
    apply foldl_stepH_congr
    apply stepH_comm
    revert hnd
    cases hky : rowKey y with
    | none => intro _; exact Or.inl rfl
    | some ky =>
      cases hkx : rowKey x with
      | none => intro _; exact Or.inr (Or.inl rfl)
      | some kx =>
        simp only [List.filterMap_cons, hky, hkx, List.nodup_cons, List.mem_cons]
        intro hnd
        refine Or.inr (Or.inr ?_)
        intro he
        injection he with h1
        exact hnd.1 (Or.inl h1)
  | trans p₁ p₂ ih₁ ih₂ =>
    intro hnd h
    have hnd₂ := ((p₁.filterMap rowKey).nodup_iff).1 hnd
    exact mapEq_trans (ih₁ hnd h) (ih₂ hnd₂ h)

theorem historyLookup_foldl_stepH_of_no_key (t d : String) :
    ∀ (l : List Row) (h : TickerHistory),
      (∀ r ∈ l, rowKey r ≠ some (t, d)) →
      historyLookup (List.foldl stepH h l) t d = historyLookup h t d := by
  intro l
  induction l with
  | nil => intro h _; rfl
  | cons r rest ih =>
    intro h hk
    simp only [List.foldl_cons]
    rw [ih (stepH h r) (fun r' hr' => hk r' (List.mem_cons_of_mem _ hr'))]
    cases hp : parseRow r with
    | none => simp only [stepH, hp]
    | some x =>
      obtain ⟨t', d', v'⟩ := x
      have hne : ¬ (t' = t ∧ d' = d) := by
        intro hc
        apply hk r (List.mem_cons_self r rest)
        simp [rowKey, hp, hc.1, hc.2]
      simp only [stepH, hp]
      rw [historyLookup_historyInsert, if_neg hne]

/-! ## Lemmas about the per-ticker statistics -/

theorem tickerStats_ticker (L E : String) (d7 d30 : Option String) (T : ℚ)
    (t : String) (m : List (String × ℚ)) (c : ℚ) :
    (tickerStats L E d7 d30 T t m c).ticker = t := rfl

theorem tickerStats_currentVal (L E : String) (d7 d30 : Option String) (T : ℚ)
    (t : String) (m : List (String × ℚ)) (c : ℚ) :
    (tickerStats L E d7 d30 T t m c).currentVal = c := rfl

theorem tickerStats_firstVal (L E : String) (d7 d30 : Option String) (T : ℚ)
    (t : String) (m : List (String × ℚ)) (c : ℚ) :
    (tickerStats L E d7 d30 T t m c).firstVal = dictLookup m E := rfl

theorem tickerStats_weight (L E : String) (d7 d30 : Option String) (T : ℚ)
    (t : String) (m : List (String × ℚ)) (c : ℚ) :
    (tickerStats L E d7 d30 T t m c).weight = if T = 0 then 0 else c / T * 100 := rfl

theorem tickerStats_overall (L E : String) (d7 d30 : Option String) (T : ℚ)
    (t : String) (m : List (String × ℚ)) (c : ℚ) :
    (tickerStats L E d7 d30 T t m c).overall =
      match dictLookup m E with
      | some f => if f = 0 then none else some ((c - f) / f * 100)
      | none => none := rfl

theorem tickerStats_val7 (L E : String) (d7 d30 : Option String) (T : ℚ)
    (t : String) (m : List (String × ℚ)) (c : ℚ) :
    (tickerStats L E d7 d30 T t m c).val7 =
      match d7 with
      | some d => dictLookup m d
      | none => none := rfl

theorem tickerStats_pct7 (L E : String) (d7 d30 : Option String) (T : ℚ)
    (t : String) (m : List (String × ℚ)) (c : ℚ) :
    (tickerStats L E d7 d30 T t m c).pct7 =
      match (tickerStats L E d7 d30 T t m c).val7 with
      | some v => if v = 0 then none else some ((c - v) / v * 100)
      | none => none := rfl

theorem tickerStats_val30 (L E : String) (d7 d30 : Option String) (T : ℚ)
    (t : String) (m : List (String × ℚ)) (c : ℚ) :
    (tickerStats L E d7 d30 T t m c).val30 =
      match d30 with
      | some d => dictLookup m d
      | none => none := rfl

theorem tickerStats_pct30 (L E : String) (d7 d30 : Option String) (T : ℚ)
    (t : String) (m : List (String × ℚ)) (c : ℚ) :
    (tickerStats L E d7 d30 T t m c).pct30 =
      match (tickerStats L E d7 d30 T t m c).val30 with
      | some v => if v = 0 then none else some ((c - v) / v * 100)
      | none => none := rfl

theorem tickerStats_peakVal (L E : String) (d7 d30 : Option String) (T : ℚ)
    (t : String) (m : List (String × ℚ)) (c : ℚ) :
    (tickerStats L E d7 d30 T t m c).peakVal = dictValuesMax m := rfl

theorem tickerStats_peakDate (L E : String) (d7 d30 : Option String) (T : ℚ)
    (t : String) (m : List (String × ℚ)) (c : ℚ) :
    (tickerStats L E d7 d30 T t m c).peakDate = firstArgmax m := rfl

theorem tickerStats_drawdown (L E : String) (d7 d30 : Option String) (T : ℚ)
    (t : String) (m : List (String × ℚ)) (c : ℚ) :
    (tickerStats L E d7 d30 T t m c).drawdown =
      if dictValuesMax m = 0 then 0 else (c - dictValuesMax m) / dictValuesMax m * 100 := rfl

theorem tickerStats_atAllTimeHigh (L E : String) (d7 d30 : Option String) (T : ℚ)
    (t : String) (m : List (String × ℚ)) (c : ℚ) :
    (tickerStats L E d7 d30 T t m c).atAllTimeHigh =
      (!(decide ((tickerStats L E d7 d30 T t m c).drawdown < -10)) &&
        decide (firstArgmax m = L)) := rfl

theorem tickerLine_of_lookup_none {m : List (String × ℚ)} {L : String}
    (h : dictLookup m L = none) (E : String) (d7 d30 : Option String) (T : ℚ)
    (t : String) : tickerLine L E d7 d30 T t m = SummaryLine.closed t := by
  simp [tickerLine, h]

theorem tickerLine_of_lookup_some {m : List (String × ℚ)} {L : String} {c : ℚ}
    (h : dictLookup m L = some c) (E : String) (d7 d30 : Option String) (T : ℚ)
    (t : String) :
    tickerLine L E d7 d30 T t m = SummaryLine.stats (tickerStats L E d7 d30 T t m c) := by
  simp [tickerLine, h]

theorem getStats_tickerLine {L E : String} {d7 d30 : Option String} {T : ℚ}
    {t : String} {m : List (String × ℚ)} {st : TickerStats}
    (h : (tickerLine L E d7 d30 T t m).getStats = some st) :
    ∃ c, dictLookup m L = some c ∧ st = tickerStats L E d7 d30 T t m c := by
  cases hl : dictLookup m L with
  | none =>
    rw [tickerLine_of_lookup_none hl] at h
    simp [SummaryLine.getStats] at h
  | some c =>
    rw [tickerLine_of_lookup_some hl] at h
    simp only [SummaryLine.getStats, Option.some.injEq] at h
    exact ⟨c, rfl, h.symm⟩

theorem mem_summaryLinesOf {rows : List Row} {l : SummaryLine}
    (hl : l ∈ summaryLinesOf rows) :
    ∃ t, l = tickerLine (latestDateOf rows) (earliestDateOf rows) (date7Of rows)
      (date30Of rows) (totalLatestOf rows) t ((dictLookup (historyOf rows) t).getD []) := by
  simp only [summaryLinesOf, List.mem_map] at hl
  obtain ⟨t, _, h⟩ := hl
  exact ⟨t, h.symm⟩

theorem le_dictValuesMax {m : List (String × ℚ)} {d : String} {v : ℚ}
    (h : dictLookup m d = some v) : v ≤ dictValuesMax m := by
  induction m with
  | nil => simp [dictLookup] at h
  | cons p rest ih =>
    cases rest with
    | nil =>
      simp only [dictLookup] at h
      split at h
      · injection h with hv
        subst hv
        exact le_refl _
      · simp [dictLookup] at h
    | cons q rest' =>
      simp only [dictValuesMax]
      simp only [dictLookup] at h
      split at h
      · injection h with hv
        subst hv
        exact le_max_left _ _
      · exact le_trans (ih h) (le_max_right _ _)

/-! ## Sum helpers for the weight computation -/

theorem map_keys_congr {h : TickerHistory} {w : String → ℚ}
    {f : String × List (String × ℚ) → ℚ} (hc : ∀ p ∈ h, w p.1 = f p) :
    (h.map Prod.fst).map w = h.map f := by
  induction h with
  | nil => rfl
  | cons p rest ih =>
    simp only [List.map_cons, hc p (List.mem_cons_self p rest)]
    rw [ih (fun q hq => hc q (List.mem_cons_of_mem _ hq))]

theorem sum_map_mul_const {α : Type} (l : List α) (f : α → ℚ) (c : ℚ) :
    (l.map (fun p => f p * c)).sum = (l.map f).sum * c := by
  induction l with
  | nil => simp
  | cons p rest ih => simp [ih, add_mul]

theorem lineWeight_tickerLine {T : ℚ} (hT : T ≠ 0) (L E : String)
    (d7 d30 : Option String) (t : String) (m : List (String × ℚ)) :
    lineWeight (tickerLine L E d7 d30 T t m) = (dictLookup m L).getD 0 / T * 100 := by
  cases hl : dictLookup m L with
  | none =>
    rw [tickerLine_of_lookup_none hl]
    simp [lineWeight]
  | some c =>
    rw [tickerLine_of_lookup_some hl]
    simp [lineWeight, tickerStats_weight, hT]

/-! ## Specification of the nearest-date loop -/

theorem fcdLoop_some_spec (t : Int) :
    ∀ (dates : List String) (c : String) (cd : Int), parseDate c = some cd →
      ∃ r rd, fcdLoop t (some c) (some ((cd - t).natAbs)) dates = some r ∧
        parseDate r = some rd ∧
        (rd - t).natAbs ≤ (cd - t).natAbs ∧
        (∀ d ∈ dates, ∀ dd, parseDate d = some dd → (rd - t).natAbs ≤ (dd - t).natAbs) ∧
        ((r = c ∧ rd = cd) ∨
          ∃ l₁ l₂, dates = l₁ ++ r :: l₂ ∧ (rd - t).natAbs < (cd - t).natAbs ∧
            ∀ d ∈ l₁, ∀ dd, parseDate d = some dd → (rd - t).natAbs < (dd - t).natAbs) := by
  intro dates
  induction dates with
  | nil =>
    intro c cd hc
    exact ⟨c, cd, rfl, hc, le_refl _, by simp, Or.inl ⟨rfl, rfl⟩⟩
  | cons d ds ih =>
    intro c cd hc
    cases hd : parseDate d with
    | none =>
      obtain ⟨r, rd, hrun, hr, hle, hmin, hrest⟩ := ih c cd hc
      refine ⟨r, rd, ?_, hr, hle, ?_, ?_⟩
      · rw [show fcdLoop t (some c) (some ((cd - t).natAbs)) (d :: ds) =
            fcdLoop t (some c) (some ((cd - t).natAbs)) ds by simp [fcdLoop, hd]]
        exact hrun
      · intro d' hd' dd hdd
        rcases List.mem_cons.1 hd' with he | he
        · subst he; rw [hd] at hdd; cases hdd
        · exact hmin d' he dd hdd
      · rcases hrest with h | ⟨l₁, l₂, hsplit, hlt, hstrict⟩
        · exact Or.inl h
        · refine Or.inr ⟨d :: l₁, l₂, by rw [hsplit, List.cons_append], hlt, ?_⟩
          intro d' hd' dd hdd
          rcases List.mem_cons.1 hd' with he | he
          · subst he; rw [hd] at hdd; cases hdd
          · exact hstrict d' he dd hdd
    | some dt =>
      by_cases hcmp : (dt - t).natAbs < (cd - t).natAbs
      · obtain ⟨r, rd, hrun, hr, hle, hmin, hrest⟩ := ih d dt hd
        have hloop : fcdLoop t (some c) (some ((cd - t).natAbs)) (d :: ds) =
            fcdLoop t (some d) (some ((dt - t).natAbs)) ds := by
          simp [fcdLoop, hd, hcmp]
        refine ⟨r, rd, by rw [hloop]; exact hrun, hr,
          le_of_lt (lt_of_le_of_lt hle hcmp), ?_, ?_⟩
        · intro d' hd' dd hdd
          rcases List.mem_cons.1 hd' with he | he
          · subst he; rw [hd] at hdd; injection hdd with h1; subst h1; exact hle
          · exact hmin d' he dd hdd
        · rcases hrest with ⟨he1, he2⟩ | ⟨l₁, l₂, hsplit, hlt, hstrict⟩
          · subst he1
            subst he2
            exact Or.inr ⟨[], ds, rfl, hcmp, by simp⟩
          · refine Or.inr ⟨d :: l₁, l₂, by rw [hsplit, List.cons_append],
              lt_trans hlt hcmp, ?_⟩
            intro d' hd' dd hdd
            rcases List.mem_cons.1 hd' with he | he
            · subst he; rw [hd] at hdd; injection hdd with h1; subst h1; exact hlt
            · exact hstrict d' he dd hdd
      · obtain ⟨r, rd, hrun, hr, hle, hmin, hrest⟩ := ih c cd hc
        have hloop : fcdLoop t (some c) (some ((cd - t).natAbs)) (d :: ds) =
            fcdLoop t (some c) (some ((cd - t).natAbs)) ds := by
          simp [fcdLoop, hd, hcmp]
        have hdle : (cd - t).natAbs ≤ (dt - t).natAbs := Nat.le_of_not_lt hcmp
        refine ⟨r, rd, by rw [hloop]; exact hrun, hr, hle, ?_, ?_⟩
        · intro d' hd' dd hdd
          rcases List.mem_cons.1 hd' with he | he
          · subst he; rw [hd] at hdd; injection hdd with h1; subst h1
            exact le_trans hle hdle
          · exact hmin d' he dd hdd
        · rcases hrest with h | ⟨l₁, l₂, hsplit, hlt, hstrict⟩
          · exact Or.inl h
          · refine Or.inr ⟨d :: l₁, l₂, by rw [hsplit, List.cons_append], hlt, ?_⟩
            intro d' hd' dd hdd
            rcases List.mem_cons.1 hd' with he | he
            · subst he; rw [hd] at hdd; injection hdd with h1; subst h1
              exact lt_of_lt_of_le hlt hdle
            · exact hstrict d' he dd hdd

theorem fcdLoop_none_spec (t : Int) :
    ∀ dates : List String, (∃ d ∈ dates, (parseDate d).isSome) →
      ∃ r rd l₁ l₂, fcdLoop t none none dates = some r ∧
        dates = l₁ ++ r :: l₂ ∧ parseDate r = some rd ∧
        (∀ d ∈ dates, ∀ dd, parseDate d = some dd → (rd - t).natAbs ≤ (dd - t).natAbs) ∧
        (∀ d ∈ l₁, ∀ dd, parseDate d = some dd → (rd - t).natAbs < (dd - t).natAbs) := by
  intro dates
  induction dates with
  | nil => intro h; simp at h
  | cons d ds ih =>
    intro hex
    cases hd : parseDate d with
    | none =>
      have hex' : ∃ x ∈ ds, (parseDate x).isSome := by
        obtain ⟨x, hx, hs⟩ := hex
        rcases List.mem_cons.1 hx with he | he
        · subst he; rw [hd] at hs; simp at hs
        · exact ⟨x, he, hs⟩
      obtain ⟨r, rd, l₁, l₂, hrun, hsplit, hr, hmin, hstrict⟩ := ih hex'
      refine ⟨r, rd, d :: l₁, l₂, ?_, by rw [hsplit, List.cons_append], hr, ?_, ?_⟩
      · rw [show fcdLoop t none none (d :: ds) = fcdLoop t none none ds by
          simp [fcdLoop, hd]]
        exact hrun
      · intro d' hd' dd hdd
        rcases List.mem_cons.1 hd' with he | he
        · subst he; rw [hd] at hdd; cases hdd
        · exact hmin d' he dd hdd
      · intro d' hd' dd hdd
        rcases List.mem_cons.1 hd' with he | he
        · subst he; rw [hd] at hdd; cases hdd
        · exact hstrict d' he dd hdd
    | some dt =>
      obtain ⟨r, rd, hrun, hr, hle, hmin, hrest⟩ := fcdLoop_some_spec t ds d dt hd
      have hloop : fcdLoop t none none (d :: ds) =
          fcdLoop t (some d) (some ((dt - t).natAbs)) ds := by
        simp [fcdLoop, hd]
      rcases hrest with ⟨he1, he2⟩ | ⟨l₁, l₂, hsplit, hlt, hstrict⟩
      · refine ⟨r, rd, [], ds, by rw [hloop]; exact hrun, by simp [he1], hr, ?_, by simp⟩
        intro d' hd' dd hdd
        rcases List.mem_cons.1 hd' with he | he
        · subst he; rw [hd] at hdd; injection hdd with h1; subst h1; rw [he2]
        · exact hmin d' he dd hdd
      · refine ⟨r, rd, d :: l₁, l₂, by rw [hloop]; exact hrun,
          by rw [hsplit, List.cons_append], hr, ?_, ?_⟩
        · intro d' hd' dd hdd
          rcases List.mem_cons.1 hd' with he | he
          · subst he; rw [hd] at hdd; injection hdd with h1; subst h1; exact hle
          · exact hmin d' he dd hdd
        · intro d' hd' dd hdd
          rcases List.mem_cons.1 hd' with he | he
          · subst he; rw [hd] at hdd; injection hdd with h1; subst h1; exact hlt
          · exact hstrict d' he dd hdd

/-! ## De-duplication versus its specification -/

theorem dedupLoop_eq_firstPerKeyLoop :
    ∀ (l : List Article) (seen : List String),
      dedupLoop seen l = firstPerKeyLoop seen (l.filter (fun a => titleKey a ≠ "")) := by
  intro l
  induction l with
  | nil => intro seen; rfl
  | cons a rest ih =>
    intro seen
    by_cases hk : titleKey a = ""
    · simp only [dedupLoop, List.filter_cons, hk]
      simp [ih]
    · by_cases hseen : titleKey a ∈ seen
      · simp only [dedupLoop, List.filter_cons]
        simp [hk, hseen, firstPerKeyLoop, ih]
      · simp only [dedupLoop, List.filter_cons]
        simp [hk, hseen, firstPerKeyLoop, ih]

/-! ## The claims -/

section ClaimTheorems

attribute [local semireducible] Rat.add Rat.sub Rat.mul Rat.inv

/-- Claim C1, counterexample: as stated the claim fails.  In `rowsC1cex` the
single ticker A has a (zero) value at the latest date, so the hypothesis of
the claim holds, yet `total_latest = 0` is falsy, every weight is computed as
0, and the weights sum to 0, not 100. -/
theorem C1_counterexample :
    (∃ p ∈ historyOf rowsC1cex, (dictLookup p.2 (latestDateOf rowsC1cex)).isSome) ∧
    ((summaryLinesOf rowsC1cex).map lineWeight).sum ≠ 100 := by
  decide

/-- Claim C1 (amended): whenever the total latest-date portfolio value is
nonzero, the computed weights (value at the latest date divided by the total,
times 100; closed tickers contributing 0) sum to exactly 100. -/
theorem C1_weights_sum (rows : List Row) (hT : totalLatestOf rows ≠ 0) :
    ((summaryLinesOf rows).map lineWeight).sum = 100 := by
  have hnd := nodup_keys_historyOf rows
  unfold summaryLinesOf
  rw [List.map_map]
  rw [List.Perm.sum_eq ((insSort_perm strLe ((historyOf rows).map Prod.fst)).map _)]
  rw [map_keys_congr
    (f := fun p => (dictLookup p.2 (latestDateOf rows)).getD 0 / totalLatestOf rows * 100)
    (fun p hp => by
      have hlk : dictLookup (historyOf rows) p.1 = some p.2 :=
        dictLookup_of_mem_nodup hnd hp
      simp only [Function.comp_apply, hlk, Option.getD_some]
      exact lineWeight_tickerLine hT _ _ _ _ _ _)]
  rw [congrArg (fun f => List.map f (historyOf rows))
    (funext fun p : String × List (String × ℚ) =>
      show (dictLookup p.2 (latestDateOf rows)).getD 0 / totalLatestOf rows * 100 =
        (dictLookup p.2 (latestDateOf rows)).getD 0 * (100 / totalLatestOf rows) by ring)]
  rw [sum_map_mul_const]
  rw [show ((historyOf rows).map
        (fun p => (dictLookup p.2 (latestDateOf rows)).getD 0)).sum = totalLatestOf rows
    from rfl]
  rw [mul_comm]
  exact div_mul_cancel₀ 100 hT

/-- Witness for C1: on `rowsC1wit` the total is nonzero and the weights
(60 and 40) sum to 100. -/
theorem C1_witness :
    totalLatestOf rowsC1wit ≠ 0 ∧ ((summaryLinesOf rowsC1wit).map lineWeight).sum = 100 :=
  ⟨by decide, C1_weights_sum rowsC1wit (by decide)⟩

/-- Claim C2, counterexample: both halves of the claim fail as stated.  On
`rowsC2neg` (all values negative) the peak is −5, the latest value −10, and
the computed drawdown is +100 > 0.  On `rowsC2tie` the latest value 5 equals
the historical maximum, but the first date attaining the maximum is the
earlier date, `peak_date ≠ latest_date`, and the at-all-time-high flag is not
awarded. -/
theorem C2_counterexample :
    (∃ l ∈ summaryLinesOf rowsC2neg, ∃ st ∈ l.getStats, 0 < st.drawdown) ∧
    (∃ l ∈ summaryLinesOf rowsC2tie, ∃ st ∈ l.getStats,
      st.currentVal = st.peakVal ∧ st.atAllTimeHigh = false) := by
  decide

/-- Claim C2 (amended): for every ticker with a value at the latest date,
if its peak value is nonnegative then its drawdown is at most 0; and a ticker
whose latest value equals its historical maximum reports a drawdown of 0 and
receives the at-all-time-high flag exactly when the first date attaining the
maximum (in insertion order) is the latest date. -/
theorem C2_drawdown (rows : List Row) (l : SummaryLine) (hl : l ∈ summaryLinesOf rows)
    (st : TickerStats) (hst : l.getStats = some st) :
    (0 ≤ st.peakVal → st.drawdown ≤ 0) ∧
    (st.currentVal = st.peakVal →
      st.drawdown = 0 ∧ (st.atAllTimeHigh = true ↔ st.peakDate = latestDateOf rows)) := by
  obtain ⟨t, ht⟩ := mem_summaryLinesOf hl
  subst ht
  obtain ⟨c, hc, hstc⟩ := getStats_tickerLine hst
  subst hstc
  constructor
  · intro hpk
    rw [tickerStats_peakVal] at hpk
    rw [tickerStats_drawdown]
    split
    · exact le_refl 0
    · next hne =>
      have hpos : (0:ℚ) < dictValuesMax ((dictLookup (historyOf rows) t).getD []) :=
        lt_of_le_of_ne hpk (Ne.symm hne)
      have hcle : c ≤ dictValuesMax ((dictLookup (historyOf rows) t).getD []) :=
        le_dictValuesMax hc
      have h1 : (c - dictValuesMax ((dictLookup (historyOf rows) t).getD [])) /
          dictValuesMax ((dictLookup (historyOf rows) t).getD []) ≤ 0 :=
        div_nonpos_of_nonpos_of_nonneg (sub_nonpos.mpr hcle) hpos.le
      calc (c - dictValuesMax ((dictLookup (historyOf rows) t).getD [])) /
            dictValuesMax ((dictLookup (historyOf rows) t).getD []) * 100 ≤ 0 * 100 :=
            mul_le_mul_of_nonneg_right h1 (by norm_num)
        _ = 0 := by ring
  · intro heq
    rw [tickerStats_currentVal, tickerStats_peakVal] at heq
    have hdd : (tickerStats (latestDateOf rows) (earliestDateOf rows) (date7Of rows)
        (date30Of rows) (totalLatestOf rows) t
        ((dictLookup (historyOf rows) t).getD []) c).drawdown = 0 := by
      rw [tickerStats_drawdown]
      split
      · rfl
      · rw [← heq, sub_self, zero_div, zero_mul]
    refine ⟨hdd, ?_⟩
    rw [tickerStats_atAllTimeHigh, tickerStats_peakDate, hdd]
    rw [show (decide ((0:ℚ) < -10)) = false from by decide]
    simp

/-- Witness for C2: on `rowsC2wit` the peak 5 is nonnegative with drawdown 0,
the latest value equals the maximum, and the flag is awarded since the latest
date is the first argmax. -/
theorem C2_witness :
    (0 ≤ statsC2wit.peakVal → statsC2wit.drawdown ≤ 0) ∧
    (statsC2wit.currentVal = statsC2wit.peakVal →
      statsC2wit.drawdown = 0 ∧
      (statsC2wit.atAllTimeHigh = true ↔ statsC2wit.peakDate = latestDateOf rowsC2wit)) :=
  C2_drawdown rowsC2wit lineC2wit (by decide) statsC2wit (by decide)

/-- Claim C3: on a date list containing at least one parseable date,
`find_closest_date` returns a member of the list that parses, whose absolute
day-distance to the target is minimal among all parseable dates, and every
parseable date occurring earlier in the list has strictly greater distance
(first minimal distance found wins; unparseable dates are skipped). -/
theorem C3_find_closest (t : Int) (dates : List String)
    (hex : ∃ d ∈ dates, (parseDate d).isSome) :
    ∃ r rd l₁ l₂, find_closest_date (some t) dates = some r ∧
      dates = l₁ ++ r :: l₂ ∧ parseDate r = some rd ∧
      (∀ d ∈ dates, ∀ dd, parseDate d = some dd → (rd - t).natAbs ≤ (dd - t).natAbs) ∧
      (∀ d ∈ l₁, ∀ dd, parseDate d = some dd → (rd - t).natAbs < (dd - t).natAbs) := by
  simpa only [find_closest_date] using fcdLoop_none_spec t dates hex

/-- Witness for C3: a concrete target four days after the first date of
`datesC3wit`, whose list also contains an unparseable entry. -/
theorem C3_witness :
    ∃ r rd l₁ l₂, find_closest_date (some (dateOrdinal 2024 1 4)) datesC3wit = some r ∧
      datesC3wit = l₁ ++ r :: l₂ ∧ parseDate r = some rd ∧
      (∀ d ∈ datesC3wit, ∀ dd, parseDate d = some dd →
        (rd - dateOrdinal 2024 1 4).natAbs ≤ (dd - dateOrdinal 2024 1 4).natAbs) ∧
      (∀ d ∈ l₁, ∀ dd, parseDate d = some dd →
        (rd - dateOrdinal 2024 1 4).natAbs < (dd - dateOrdinal 2024 1 4).natAbs) :=
  C3_find_closest (dateOrdinal 2024 1 4) datesC3wit (by decide)

/-- Characterisation of `parseRow` as an if-then-else over the value parse. -/
theorem parseRow_eq (r : Row) :
    parseRow r = if pyStrip r.ticker = "" ∨ pyStrip r.date = "" then none
      else (parseFloat (stripCommasDollars r.value)).map
        (fun v => (pyStrip r.ticker, pyStrip r.date, v)) := by
  unfold parseRow
  cases hp : parseFloat (stripCommasDollars r.value) with
  | none => simp
  | some v => simp

/-- Claim C4: a row parses exactly when, after all commas and dollar signs
are removed from its value string, the remainder parses as a decimal number
(and the ticker and date are non-empty after stripping); the parsed value is
exactly that number, and a row that fails the parse leaves the per-ticker map
unchanged — the row loop is a total function, so no exception escapes. -/
theorem C4_row_parse (r : Row) :
    (∀ t d v, parseRow r = some (t, d, v) →
      parseFloat (stripCommasDollars r.value) = some v ∧
      t = pyStrip r.ticker ∧ d = pyStrip r.date) ∧
    (parseRow r = none ↔
      pyStrip r.ticker = "" ∨ pyStrip r.date = "" ∨
        parseFloat (stripCommasDollars r.value) = none) ∧
    (parseRow r = none → ∀ acc, buildStep acc r = acc) := by
  refine ⟨?_, ?_, ?_⟩
  · intro t d v h
    rw [parseRow_eq] at h
    split at h
    · exact absurd h (by simp)
    · obtain ⟨v', hv', he⟩ := Option.map_eq_some'.1 h
      injection he with h1 h2
      injection h2 with h2 h3
      exact ⟨by rw [hv', h3], h1.symm, h2.symm⟩
  · rw [parseRow_eq]
    split
    · next hcond =>
      simp only [true_iff]
      rcases hcond with h | h
      · exact Or.inl h
      · exact Or.inr (Or.inl h)
    · next hcond =>
      push_neg at hcond
      simp [Option.map_eq_none', hcond.1, hcond.2]
  · intro h acc
    simp [buildStep, h]

/-- Witness for C4: the dollar-and-comma value `$1,234.50` parses to the
rational 1234.5, and the unparseable row `rowC4bad` is a no-op on the
accumulator. -/
theorem C4_witness :
    parseFloat (stripCommasDollars rowC4wit.value) = some (2469 / 2) ∧
    (∀ acc, buildStep acc rowC4bad = acc) :=
  ⟨((C4_row_parse rowC4wit).1 "A" "2024-01-01" (2469 / 2) (by decide)).1,
   (C4_row_parse rowC4bad).2.2 (by decide)⟩

/-- Claim C5: a ticker with a value at the earliest date but none at the
latest date is reported with the closed/sold line, contributes 0 to the
latest-date total (its summand `vals.get(latest_date, 0)` is 0), and no
statistics line (weight, percent changes, drawdown) is emitted for it. -/
theorem C5_closed_ticker (rows : List Row) (t : String) (m : List (String × ℚ))
    (hmem : (t, m) ∈ historyOf rows)
    (_hfirst : (dictLookup m (earliestDateOf rows)).isSome)
    (hlast : dictLookup m (latestDateOf rows) = none) :
    SummaryLine.closed t ∈ summaryLinesOf rows ∧
    (dictLookup m (latestDateOf rows)).getD 0 = 0 ∧
    (∀ st : TickerStats, SummaryLine.stats st ∈ summaryLinesOf rows → st.ticker ≠ t) := by
  have hnd := nodup_keys_historyOf rows
  have hlk : dictLookup (historyOf rows) t = some m := dictLookup_of_mem_nodup hnd hmem
  refine ⟨?_, by rw [hlast]; rfl, ?_⟩
  · unfold summaryLinesOf
    apply List.mem_map.2
    refine ⟨t, ?_, ?_⟩
    · exact ((insSort_perm strLe _).mem_iff).2 (List.mem_map.2 ⟨(t, m), hmem, rfl⟩)
    · rw [hlk]
      exact tickerLine_of_lookup_none hlast _ _ _ _ _
  · intro st hstmem hticker
    obtain ⟨t', ht'⟩ := mem_summaryLinesOf hstmem
    have hgs : (tickerLine (latestDateOf rows) (earliestDateOf rows) (date7Of rows)
        (date30Of rows) (totalLatestOf rows) t'
        ((dictLookup (historyOf rows) t').getD [])).getStats = some st := by
      rw [← ht']
      rfl
    obtain ⟨c, hc, hstc⟩ := getStats_tickerLine hgs
    have htt : t' = t := by rw [hstc, tickerStats_ticker] at hticker; exact hticker
    subst htt
    rw [hlk] at hc
    simp only [Option.getD_some] at hc
    rw [hc] at hlast
    exact Option.noConfusion hlast

/-- Witness for C5: in `rowsC5wit` ticker A appears only at the earliest
date; it is reported closed, contributes 0, and has no statistics line. -/
theorem C5_witness :
    SummaryLine.closed "A" ∈ summaryLinesOf rowsC5wit ∧
    (dictLookup [("2024-01-01", (10 : ℚ))] (latestDateOf rowsC5wit)).getD 0 = 0 ∧
    (∀ st : TickerStats, SummaryLine.stats st ∈ summaryLinesOf rowsC5wit →
      st.ticker ≠ "A") :=
  C5_closed_ticker rowsC5wit "A" [("2024-01-01", 10)] (by decide) (by decide) (by decide)

/-- Claim C6, counterexample: the two lists `rowsC6P` and `rowsC6Q` are
permutations of each other and all their (ticker, date) keys are pairwise
distinct, yet the aggregator's reported top performer differs (A versus B):
the tie between the two +100% performers is broken by the stable sort in row
insertion order, so the full result is not invariant under such reorderings. -/
theorem C6_counterexample :
    rowsC6P.Perm rowsC6Q ∧ (rowsC6P.filterMap rowKey).Nodup ∧
    (get_portfolio_history rowsC6P []).1.map Summary.top ≠
      (get_portfolio_history rowsC6Q []).1.map Summary.top := by
  decide

/-- Claim C6 (amended): the per-ticker map is last-write-wins in full
generality — for any row sequence, the value stored for a (ticker, date) key
is the value of the last parseable row bearing that key, no matter how many
rows with other keys follow it — and the map, as a function from
(ticker, date) to value, is invariant under any permutation of rows whose
parseable keys are pairwise distinct.  (The rendered text block, by contrast,
need not be invariant: see the counterexample.) -/
theorem C6_last_write_wins :
    (∀ (l₁ : List Row) (r : Row) (l₂ : List Row) (t d : String) (v : ℚ),
      parseRow r = some (t, d, v) →
      (∀ r' ∈ l₂, rowKey r' ≠ some (t, d)) →
      historyLookup (historyOf (l₁ ++ r :: l₂)) t d = some v) ∧
    (∀ rows rows' : List Row, rows.Perm rows' → (rows.filterMap rowKey).Nodup →
      ∀ t d, historyLookup (historyOf rows) t d = historyLookup (historyOf rows') t d) := by
  constructor
  · intro l₁ r l₂ t d v h hkey
    rw [historyOf_eq_foldl, List.foldl_append, List.foldl_cons]
    rw [historyLookup_foldl_stepH_of_no_key t d l₂ _ hkey]
    rw [show stepH (List.foldl stepH [] l₁) r =
        historyInsert (List.foldl stepH [] l₁) t d v by simp [stepH, h]]
    rw [historyLookup_historyInsert]
    simp
  · intro rows rows' hperm hnd t d
    rw [historyOf_eq_foldl, historyOf_eq_foldl]
    exact foldl_stepH_perm hperm hnd [] t d

/-- Witness for C6: a duplicate of the key (A, 2024-01-01) occurring in the
middle of the sequence — followed by a later row with a different key —
overwrites the stored value 1 with 7, and the maps built from the two
reorderings agree pointwise. -/
theorem C6_witness :
    historyLookup
        (historyOf (rowsC6P ++ ⟨"2024-01-01", "A", "7"⟩ :: [⟨"2024-01-02", "B", "9"⟩]))
        "A" "2024-01-01" = some 7 ∧
    historyLookup (historyOf rowsC6P) "B" "2024-01-01" =
      historyLookup (historyOf rowsC6Q) "B" "2024-01-01" :=
  ⟨C6_last_write_wins.1 rowsC6P ⟨"2024-01-01", "A", "7"⟩ [⟨"2024-01-02", "B", "9"⟩]
      "A" "2024-01-01" 7 (by decide) (by decide),
   C6_last_write_wins.2 rowsC6P rowsC6Q (by decide) (by decide) "B" "2024-01-01"⟩

/-- Claim C7, counterexample: as stated the claim fails.  An article whose
title is whitespace only has the empty normalised key; the code drops it
entirely, whereas retaining the first article per distinct key would keep
it. -/
theorem C7_counterexample :
    dedupArticles [articleBlank] ≠ firstPerKeyArticles [articleBlank] := by
  decide

/-- Claim C7 (amended): de-duplication keys each article by its title
lowercased and stripped, and retains exactly the first article for each
distinct non-empty key across all categories — articles whose normalised
title is empty are dropped; in particular the two articles of
`articleFed1`/`articleFed2`, whose titles differ only in case and surrounding
whitespace, collapse to the first one encountered. -/
theorem C7_dedup :
    (∀ articles : List Article,
      dedupArticles articles =
        firstPerKeyArticles (articles.filter (fun a => titleKey a ≠ ""))) ∧
    dedupArticles [articleFed1, articleFed2] = [articleFed1] := by
  constructor
  · intro articles
    exact dedupLoop_eq_firstPerKeyLoop articles []
  · decide

/-- Claim C8: the freshness check excludes an article exactly when its
publish-timestamp string is non-empty, parses (the RFC 2822 library parse is
abstracted as `parse`), and the parsed time is strictly before `now` minus
the lookback window; an empty or unparsable timestamp is always retained
(fail-open), and `get_news` filters by this check with the default 24-hour
window. -/
theorem C8_freshness (parse : String → Option Int) (now maxAge : Int) (s : String) :
    (is_article_fresh parse now s maxAge = false ↔
      s ≠ "" ∧ ∃ ts, parse s = some ts ∧ ts < now - maxAge * 3600) ∧
    ((s = "" ∨ parse s = none) → is_article_fresh parse now s maxAge = true) ∧
    (∀ (a : Article) (articles : List Article),
      a ∈ filterFreshArticles parse now articles ↔
        a ∈ articles ∧ is_article_fresh parse now a.published 24 = true) := by
  refine ⟨?_, ?_, ?_⟩
  · unfold is_article_fresh
    by_cases hs : s = ""
    · simp [hs]
    · rw [if_neg hs]
      cases hp : parse s with
      | none => simp [hs, hp]
      | some ts =>
        simp only [hs, hp, ne_eq, not_false_eq_true, true_and, Option.some.injEq,
          decide_eq_false_iff_not, not_le]
        constructor
        · intro h
          exact ⟨ts, rfl, h⟩
        · rintro ⟨ts', hts', hlt⟩
          subst hts'
          exact hlt
  · intro h
    unfold is_article_fresh
    rcases h with h | h
    · simp [h]
    · by_cases hs : s = ""
      · simp [hs]
      · simp [hs, h]
  · intro a articles
    simp [filterFreshArticles, List.mem_filter]

/-- Witness for C8: with a parse that always returns time 0 and the current
time well past the 24-hour window, a non-empty timestamp is excluded while an
empty one is retained. -/
theorem C8_witness :
    (is_article_fresh (fun _ => some 0) 100000 "x" 24 = false ↔
      "x" ≠ "" ∧ ∃ ts, (fun _ => some (0 : Int)) "x" = some ts ∧
        ts < 100000 - 24 * 3600) ∧
    (("" = "" ∨ (fun _ => some (0 : Int)) "" = none) →
      is_article_fresh (fun _ => some 0) 100000 "" 24 = true) :=
  ⟨(C8_freshness (fun _ => some 0) 100000 24 "x").1,
   (C8_freshness (fun _ => some 0) 100000 24 "").2.1⟩

/-- Claim C9: when at least one row parses, `get_portfolio_history` returns a
summary and overwrites the portfolio list with exactly the tickers having a
value at the latest observed date; when no row parses (in particular on empty
input) it returns no summary, without raising — the Lean model is a total
function — and leaves the portfolio unchanged. -/
theorem C9_portfolio_update (rows : List Row) (p : List String) :
    ((∃ r ∈ rows, (parseRow r).isSome) →
      (get_portfolio_history rows p).1.isSome ∧
      (get_portfolio_history rows p).2 = latestTickersOf rows ∧
      (∀ t, t ∈ latestTickersOf rows ↔
        ∃ m, (t, m) ∈ historyOf rows ∧
          (dictLookup m (latestDateOf rows)).isSome)) ∧
    ((∀ r ∈ rows, parseRow r = none) → get_portfolio_history rows p = (none, p)) := by
  constructor
  · intro hex
    have hne : historyOf rows ≠ [] := historyOf_ne_nil hex
    have hrows : rows ≠ [] := by
      rintro rfl
      simp at hex
    have hlatest_mem : latestDateOf rows ∈ datesOf rows := by
      have hdne : datesOf rows ≠ [] := datesOf_ne_nil hne
      have hsne : sortedDatesOf rows ≠ [] := by
        intro hnil
        exact hdne (((insSort_perm strLe (datesOf rows)).symm.trans
          (hnil ▸ List.Perm.refl [])).eq_nil)
      exact ((insSort_perm strLe (datesOf rows)).mem_iff).1
        (mem_getLastD _ "" hsne)
    obtain ⟨t₀, ht₀⟩ := historyOf_witness_of_mem_dates hlatest_mem
    have hlt_ne : latestTickersOf rows ≠ [] := by
      unfold historyLookup at ht₀
      cases hdl : dictLookup (historyOf rows) t₀ with
      | none => rw [hdl] at ht₀; simp at ht₀
      | some m =>
        rw [hdl] at ht₀
        have ht₀' : (dictLookup m (latestDateOf rows)).isSome = true := ht₀
        exact List.ne_nil_of_mem (List.mem_map.2
          ⟨(t₀, m), List.mem_filter.2 ⟨mem_of_dictLookup hdl, ht₀'⟩, rfl⟩)
    refine ⟨?_, ?_, ?_⟩
    · simp [get_portfolio_history, hrows, hne]
    · simp [get_portfolio_history, hrows, hne, hlt_ne]
    · intro t
      constructor
      · intro ht
        obtain ⟨pp, hpf, hpe⟩ := List.mem_map.1 ht
        obtain ⟨hpm, hcond⟩ := List.mem_filter.1 hpf
        exact ⟨pp.2, by rw [← hpe]; exact hpm, by simpa using hcond⟩
      · rintro ⟨m, hm, hs⟩
        exact List.mem_map.2 ⟨(t, m), List.mem_filter.2 ⟨hm, by simpa using hs⟩, rfl⟩
  · intro hnone
    by_cases hrows : rows = []
    · simp [get_portfolio_history, hrows]
    · have hhist : historyOf rows = [] := by
        unfold historyOf buildHistory
        rw [foldl_buildStep_of_noparse rows ([], []) hnone]
      simp [get_portfolio_history, hrows, hhist]

/-- Witness for C9: one valid row replaces the stale portfolio with the
ticker A, and an all-invalid input leaves it untouched. -/
theorem C9_witness :
    ((get_portfolio_history rowsC9wit ["OLD"]).1.isSome ∧
      (get_portfolio_history rowsC9wit ["OLD"]).2 = latestTickersOf rowsC9wit ∧
      (∀ t, t ∈ latestTickersOf rowsC9wit ↔
        ∃ m, (t, m) ∈ historyOf rowsC9wit ∧
          (dictLookup m (latestDateOf rowsC9wit)).isSome)) ∧
    get_portfolio_history rowsC9bad ["OLD"] = (none, ["OLD"]) := by
  refine ⟨(C9_portfolio_update rowsC9wit ["OLD"]).1 (by decide), ?_⟩
  exact (C9_portfolio_update rowsC9bad ["OLD"]).2 (by decide)

/-- Claim C10: no per-ticker statistic divides by zero — a zero denominator
is treated like an absent value: a zero total gives every ticker weight 0, a
zero (or absent) earliest/7-day/30-day reference value makes the
corresponding percent-change field `none`, and a zero peak gives drawdown
0. -/
theorem C10_no_div_zero (rows : List Row) (l : SummaryLine)
    (hl : l ∈ summaryLinesOf rows) (st : TickerStats) (hst : l.getStats = some st) :
    (totalLatestOf rows = 0 → st.weight = 0) ∧
    (st.firstVal = none ∨ st.firstVal = some 0 → st.overall = none) ∧
    (st.val7 = none ∨ st.val7 = some 0 → st.pct7 = none) ∧
    (st.val30 = none ∨ st.val30 = some 0 → st.pct30 = none) ∧
    (st.peakVal = 0 → st.drawdown = 0) := by
  obtain ⟨t, ht⟩ := mem_summaryLinesOf hl
  subst ht
  obtain ⟨c, hc, hstc⟩ := getStats_tickerLine hst
  subst hstc
  refine ⟨?_, ?_, ?_, ?_, ?_⟩
  · intro hT
    rw [tickerStats_weight, if_pos hT]
  · intro hf
    rw [tickerStats_firstVal] at hf
    rw [tickerStats_overall]
    rcases hf with hf | hf <;> simp [hf]
  · intro hf
    rw [tickerStats_pct7]
    rcases hf with hf | hf <;> simp [hf]
  · intro hf
    rw [tickerStats_pct30]
    rcases hf with hf | hf <;> simp [hf]
  · intro hp
    rw [tickerStats_peakVal] at hp
    rw [tickerStats_drawdown, if_pos hp]

/-- Witness for C10: on `rowsC10wit` the earliest value is exactly 0, so the
overall percent-change field is omitted (and the other guards hold at their
computed values). -/
theorem C10_witness :
    (totalLatestOf rowsC10wit = 0 → statsC10wit.weight = 0) ∧
    (statsC10wit.firstVal = none ∨ statsC10wit.firstVal = some 0 →
      statsC10wit.overall = none) ∧
    (statsC10wit.val7 = none ∨ statsC10wit.val7 = some 0 →
      statsC10wit.pct7 = none) ∧
    (statsC10wit.val30 = none ∨ statsC10wit.val30 = some 0 →
      statsC10wit.pct30 = none) ∧
    (statsC10wit.peakVal = 0 → statsC10wit.drawdown = 0) :=
  C10_no_div_zero rowsC10wit lineC10wit (by decide) statsC10wit (by decide)

end ClaimTheorems

end Newsletter
